import Mathlib

/-!
Verification of the tesseroid gravity-field core (fatiando/gravmag/_tesseroid.pyx).

The source is Cython over IEEE doubles.  We embed it shallowly with exact
rationals: every numeric value is a `ℚ`, and the transcendental C library
functions (`sin`, `cos`, `sqrt`, `atan2`, and the fractional power used for
`l_sqr**2.5`) together with the module constants `d2r = pi/180` and
`MEAN_EARTH_RADIUS` (imported from `fatiando.constants`, outside this file's
source) are fields of an environment `Env`.  Each definition mirrors the
corresponding source function line by line; theorems quantify over the
environment wherever the source property does not depend on the actual
floating-point functions.
-/

set_option linter.unusedVariables false

namespace FatiandoTesseroid

/-- A tesseroid: the six scalars `w, e, s, n, top, bottom` that the source
passes around as a tuple (west/east longitude, south/north latitude,
top/bottom radial bounds). -/
structure Tess where
  w : ℚ
  e : ℚ
  s : ℚ
  n : ℚ
  top : ℚ
  bottom : ℚ
  deriving DecidableEq

/-- One observation point: the per-point entries of the caller-supplied
parallel arrays `lons`, `sinlats`, `coslats`, `radii`. -/
structure Point where
  lon : ℚ
  sinlat : ℚ
  coslat : ℚ
  radius : ℚ
  deriving DecidableEq

/-- The numeric environment: the C math functions used by the source plus the
module-level constants `d2r` and `MEAN_EARTH_RADIUS`.  `pow25` models the C
power `x**2.5` applied to `l_sqr` in the gradient kernels. -/
structure Env where
  sin : ℚ → ℚ
  cos : ℚ → ℚ
  sqrt : ℚ → ℚ
  atan2 : ℚ → ℚ → ℚ
  pow25 : ℚ → ℚ
  d2r : ℚ
  MEAN_EARTH_RADIUS : ℚ

/-- The ordering invariant on tesseroid bounds stated by the spec:
`west < east`, `south < north`, `top > bottom`. -/
def Tess.valid (t : Tess) : Prop :=
  t.w < t.e ∧ t.s < t.n ∧ t.bottom < t.top

instance (t : Tess) : Decidable t.valid := by
  unfold Tess.valid; infer_instance

/-- Boolean form of `Tess.valid`. -/
def Tess.validb (t : Tess) : Bool :=
  decide (t.w < t.e) && decide (t.s < t.n) && decide (t.bottom < t.top)

/-! ## Proximity classifier: `too_close` (source lines 34-83) -/

/-- The epsilon of the degenerate-distance test `if distance < 1e-20` in
`too_close` (source line 75). -/
def epsTC : ℚ := 1 / 10 ^ 20

/-- The message of the `ValueError` raised by `too_close` (source line 76). -/
def tooCloseMsg : String := "Can't calculate directly on the tesseroid"

/-- The characteristic size of a tesseroid computed by `too_close`
(source lines 64-66):
`max([R*d2r*(e - w), R*d2r*(n - s), top - bottom])`. -/
def tc_size (env : Env) (t : Tess) : ℚ :=
  max (env.MEAN_EARTH_RADIUS * env.d2r * (t.e - t.w))
    (max (env.MEAN_EARTH_RADIUS * env.d2r * (t.n - t.s)) (t.top - t.bottom))

/-- The squared straight-line distance computed inside the `too_close` loop
for the point with index `p` (source lines 59-63 and 73-74):
`radius[p]**2 + rt_sqr - 2*radius[p]*rt*cospsi` with `rt = top + R`,
`cospsi = sinlat[p]*sinlatt + coslat[p]*coslatt*cos(lon[p] - lont)`,
`latt = d2r*0.5*(s + n)`, `lont = d2r*0.5*(w + e)`. -/
def tc_dist2 (env : Env) (t : Tess) (lon sinlat coslat radius : ℕ → ℚ) (p : ℕ) : ℚ :=
  radius p ^ 2 + (t.top + env.MEAN_EARTH_RADIUS) ^ 2
    - 2 * radius p * (t.top + env.MEAN_EARTH_RADIUS)
      * (sinlat p * env.sin (env.d2r * (1 / 2) * (t.s + t.n))
         + coslat p * env.cos (env.d2r * (1 / 2) * (t.s + t.n))
           * env.cos (lon p - env.d2r * (1 / 2) * (t.w + t.e)))

/-- The two-pointer classification loop of `too_close` (source lines 69-83),
written with explicit state passing.  The mutable array `points` together
with the cursors `i <= j` is represented as three segments:
`farSeg` holds `points[:i]` (already classified far), `middle` holds
`points[i:j+1]` (still unclassified, examined head first, so its head sits at
array position `i`), and `closeSeg` holds `points[j+1:]` (already classified
close, most recently placed element first, i.e. in array position order).
The counter argument equals `middle.length` (that is `j - i + 1`), which the
source decreases by one each iteration; it only drives the structural
recursion.  The far branch (`distance > value`) advances `i`; the close
branch performs the source's swap `points[i] = points[j]; points[j] = p`,
which moves the last unclassified element to the front of the middle segment
and prepends `p` to the close segment. -/
def too_close_loop (dist2 : ℕ → ℚ) (value : ℚ) :
    ℕ → List ℕ → List ℕ → List ℕ → Except String (ℕ × List ℕ)
  | 0, _, farSeg, closeSeg => Except.ok (farSeg.length, farSeg ++ closeSeg)
  | _ + 1, [], farSeg, closeSeg => Except.ok (farSeg.length, farSeg ++ closeSeg)
  | m + 1, p :: rest, farSeg, closeSeg =>
    if dist2 p < epsTC then Except.error tooCloseMsg
    else if dist2 p > value then
      too_close_loop dist2 value m rest (farSeg ++ [p]) closeSeg
    else
      match rest with
      | [] => too_close_loop dist2 value m [] farSeg (p :: closeSeg)
      | q :: rs =>
        too_close_loop dist2 value m
          (List.getLast (q :: rs) (List.cons_ne_nil q rs) :: List.dropLast (q :: rs))
          farSeg (p :: closeSeg)

/-- The classifier `too_close` (source lines 34-83): computes the threshold
`value = (size*ratio)**2` and runs the two-pointer loop on the index list
`points`, returning the boundary index and the final index array, or the
degenerate-distance error. -/
def too_close (env : Env) (t : Tess) (lon sinlat coslat radius : ℕ → ℚ)
    (ratio : ℚ) (points : List ℕ) : Except String (ℕ × List ℕ) :=
  too_close_loop (tc_dist2 env t lon sinlat coslat radius)
    ((tc_size env t * ratio) ^ 2) points.length points [] []

/-! ## Geometry and node scaling: `scale_nodes` (source lines 88-112) -/

/-- The two Gauss-Legendre reference abscissas, the module-level `nodes`
array (source lines 28-29), as exact rationals of the source's literals. -/
def nodes : Fin 2 → ℚ :=
  ![-(577350269189625731058868041146 : ℚ) / 10 ^ 30,
    (577350269189625731058868041146 : ℚ) / 10 ^ 30]

/-- The quadrature node buffers written by `scale_nodes`: `lonc`, `sinlatc`,
`coslatc`, `rc`, two entries each.  `latc` is the source's intermediate
latitude variable (source line 107) from which `sinlatc` and `coslatc` are
taken; we record it so the physical latitude of each node can be stated. -/
structure Nodes where
  lonc : Fin 2 → ℚ
  latc : Fin 2 → ℚ
  sinlatc : Fin 2 → ℚ
  coslatc : Fin 2 → ℚ
  rc : Fin 2 → ℚ

/-- The function `scale_nodes` (source lines 88-112): scales the reference nodes to the
tesseroid's extent and returns the node buffers and the Jacobian
`scale = d2r*dlon*d2r*dlat*dr*0.125`. -/
def scale_nodes (env : Env) (t : Tess) : Nodes × ℚ :=
  let dlon := t.e - t.w
  let dlat := t.n - t.s
  let dr := t.top - t.bottom
  let mlon := (1 / 2) * (t.e + t.w)
  let mlat := (1 / 2) * (t.n + t.s)
  let mr := (1 / 2) * (t.top + t.bottom + 2 * env.MEAN_EARTH_RADIUS)
  ({ lonc := fun i => env.d2r * ((1 / 2) * dlon * nodes i + mlon)
     latc := fun i => env.d2r * ((1 / 2) * dlat * nodes i + mlat)
     sinlatc := fun i => env.sin (env.d2r * ((1 / 2) * dlat * nodes i + mlat))
     coslatc := fun i => env.cos (env.d2r * ((1 / 2) * dlat * nodes i + mlat))
     rc := fun i => (1 / 2) * dr * nodes i + mr },
   env.d2r * dlon * env.d2r * dlat * dr * (1 / 8))

/-! ## Field kernels used by the claims: `potential` (source lines 117-156)
and `kernelzz` (source lines 704-724) -/

/-- The contribution that `potential` (source lines 117-156) adds to
`result[l]` for one observation point: the sum over the 2x2x2 node grid of
`density*scale*(kappa/sqrt(l_sqr))`. -/
def potentialPoint (env : Env) (t : Tess) (density : ℚ) (pt : Point) : ℚ :=
  let nd := (scale_nodes env t).1
  let scale := (scale_nodes env t).2
  ∑ i : Fin 2, ∑ j : Fin 2, ∑ k : Fin 2,
    (let coslon := env.cos (pt.lon - nd.lonc i)
     let cospsi := pt.sinlat * nd.sinlatc j + pt.coslat * nd.coslatc j * coslon
     let rc_sqr := nd.rc k ^ 2
     let l_sqr := pt.radius ^ 2 + rc_sqr - 2 * pt.radius * nd.rc k * cospsi
     let kappa := rc_sqr * nd.coslatc j
     density * scale * (kappa / env.sqrt l_sqr))

/-- The direct-batch `potential` operation (source lines 117-156) on a batch
of (point, result-entry) pairs: each entry is incremented by that point's
contribution (`result[l] += ...`). -/
def potential (env : Env) (t : Tess) (density : ℚ) (pts : List (Point × ℚ)) : List ℚ :=
  pts.map fun pr => pr.2 + potentialPoint env t density pr.1

/-- The vertical-gradient kernel `kernelzz` (source lines 704-724): the sum
over the 2x2x2 node grid of `scale*kappa*(3*deltaz**2 - l_sqr)/l_5` with
`l_5 = l_sqr**2.5` and `deltaz = rc[k]*cospsi - radius`. -/
def kernelzz (env : Env) (pt : Point) (scale : ℚ) (nd : Nodes) : ℚ :=
  ∑ i : Fin 2, ∑ j : Fin 2, ∑ k : Fin 2,
    (let coslon := env.cos (pt.lon - nd.lonc i)
     let cospsi := pt.sinlat * nd.sinlatc j + pt.coslat * nd.coslatc j * coslon
     let rc_sqr := nd.rc k ^ 2
     let l_sqr := pt.radius ^ 2 + rc_sqr - 2 * pt.radius * nd.rc k * cospsi
     let l_5 := env.pow25 l_sqr
     let kappa := rc_sqr * nd.coslatc j
     let deltaz := nd.rc k * cospsi - pt.radius
     scale * kappa * (3 * deltaz ^ 2 - l_sqr) / l_5)

/-! ## Distance and extent estimator: `distance_n_size` (source lines 727-759) -/

/-- The function `distance_n_size` (source lines 727-759): the straight-line distance from
the observation point to the tesseroid (via the spherical law of cosines at
radius `rt = top + R`) and the three extents `dlon`, `dlat` (great-circle
formulas through `atan2`) and `dr = top - bottom`. -/
def distance_n_size (env : Env) (t : Tess) (pt : Point) : ℚ × ℚ × ℚ × ℚ :=
  let rt := t.top + env.MEAN_EARTH_RADIUS
  let lont := env.d2r * (1 / 2) * (t.w + t.e)
  let latt := env.d2r * (1 / 2) * (t.s + t.n)
  let sinlatt := env.sin latt
  let coslatt := env.cos latt
  let cospsi := pt.sinlat * sinlatt + pt.coslat * coslatt * env.cos (pt.lon - lont)
  let distance := env.sqrt (pt.radius ^ 2 + rt ^ 2 - 2 * pt.radius * rt * cospsi)
  let sinn := env.sin (env.d2r * t.n)
  let cosn := env.cos (env.d2r * t.n)
  let sins := env.sin (env.d2r * t.s)
  let coss := env.cos (env.d2r * t.s)
  let sindlon := env.sin (env.d2r * (t.e - t.w))
  let cosdlon := env.cos (env.d2r * (t.e - t.w))
  let dlon := env.MEAN_EARTH_RADIUS * env.atan2
      (env.sqrt ((coslatt * sindlon) ^ 2
        + (coslatt * sinlatt - sinlatt * coslatt * cosdlon) ^ 2))
      (sinlatt ^ 2 + cosdlon * coslatt ^ 2)
  let dlat := env.MEAN_EARTH_RADIUS * env.atan2
      (coss * sinn - sins * cosn) (sins * sinn + coss * cosn)
  (distance, dlon, dlat, t.top - t.bottom)

/-! ## Adaptive refinement engine: `with_rediscretization`
(source lines 614-698) and `gzz` (source lines 596-609) -/

/-- The fixed work-list capacity `queue_max = 10000` (source line 638). -/
def queue_max : ℕ := 10000

/-- The message of the `ValueError` raised on work-list overflow
(source line 683). -/
def overflowMsg : String := "Tesseroid queue overflow"

/-- The child sub-tesseroid written by the splitting loop for loop indices
`(i, j, k)` (source lines 684-695): each axis is cut into `nlon`/`nlat`/`nr`
pieces of widths `(e-w)/nlon`, `(n-s)/nlat`, `(top-bottom)/nr`. -/
def splitChild (t : Tess) (nlon nlat nr : ℕ) (i j k : ℕ) : Tess :=
  { w := t.w + (i : ℚ) * ((t.e - t.w) / (nlon : ℚ))
    e := t.w + ((i : ℚ) + 1) * ((t.e - t.w) / (nlon : ℚ))
    s := t.s + (j : ℚ) * ((t.n - t.s) / (nlat : ℚ))
    n := t.s + ((j : ℚ) + 1) * ((t.n - t.s) / (nlat : ℚ))
    top := t.bottom + ((k : ℚ) + 1) * ((t.top - t.bottom) / (nr : ℚ))
    bottom := t.bottom + (k : ℚ) * ((t.top - t.bottom) / (nr : ℚ)) }

/-- All children produced by the splitting loops `for i in xrange(nlon): for
j in xrange(nlat): for k in xrange(nr)` (source lines 687-696), in push
order. -/
def splitChildren (t : Tess) (nlon nlat nr : ℕ) : List Tess :=
  (List.range nlon).flatMap fun i =>
    (List.range nlat).flatMap fun j =>
      (List.range nr).map fun k => splitChild t nlon nlat nr i j k

/-- The per-point engine state: the work list (most recently pushed item
first, i.e. the valid region `queue[0:queue_size]` of the source's array read
back to front), the source's `queue_size` counter, and the accumulator
`res`. -/
structure EngState where
  queue : List Tess
  qsize : ℕ
  res : ℚ
  deriving DecidableEq

/-- Outcome of one iteration of the `while queue_size` loop. -/
inductive StepOut where
  | done (res : ℚ)
  | overflow
  | next (st : EngState)
  deriving DecidableEq

/-- One iteration of the engine loop (source lines 655-696): pop the top work
item, compute distance and extents, flag each axis with `nlon/nlat/nr = 2`
when `distance < ratio*extent`; if no axis is flagged evaluate the kernel on
the item's scaled nodes and accumulate, otherwise check the overflow guard
`queue_size + nlon + nlat + nr > queue_max` and push the children. -/
def engineStep (env : Env) (ratio : ℚ) (pt : Point)
    (kernel : Point → ℚ → Nodes → ℚ) (st : EngState) : StepOut :=
  match st.queue with
  | [] => StepOut.done st.res
  | t :: rest =>
    let qs := st.qsize - 1
    let dns := distance_n_size env t pt
    let distance := dns.1
    let dlon := dns.2.1
    let dlat := dns.2.2.1
    let dr := dns.2.2.2
    let nlon : ℕ := if distance < ratio * dlon then 2 else 1
    let nlat : ℕ := if distance < ratio * dlat then 2 else 1
    let nr : ℕ := if distance < ratio * dr then 2 else 1
    if nlon = 1 ∧ nlat = 1 ∧ nr = 1 then
      StepOut.next
        ⟨rest, qs, st.res + kernel pt (scale_nodes env t).2 (scale_nodes env t).1⟩
    else if queue_max < qs + (nlon + nlat + nr) then StepOut.overflow
    else
      StepOut.next
        ⟨(splitChildren t nlon nlat nr).reverse ++ rest, qs + nlon * nlat * nr, st.res⟩

/-- Outcome of a full engine run for one observation point. -/
inductive LoopOut where
  | ok (res : ℚ)
  | overflow
  | stalled (st : EngState)
  deriving DecidableEq

/-- The engine loop `while queue_size:` (source lines 655-696), with fuel to
make the recursion structural; `stalled` is the out-of-fuel artifact of the
embedding and corresponds to no source behavior. -/
def engineLoop (env : Env) (ratio : ℚ) (pt : Point)
    (kernel : Point → ℚ → Nodes → ℚ) : ℕ → EngState → LoopOut
  | 0, st => LoopOut.stalled st
  | fuel + 1, st =>
    match engineStep env ratio pt kernel st with
    | StepOut.done r => LoopOut.ok r
    | StepOut.overflow => LoopOut.overflow
    | StepOut.next st' => engineLoop env ratio pt kernel fuel st'

/-- The initial engine state for one point (source lines 651-654): the work
list holds the original tesseroid bounds, `queue_size = 1`, `res = 0`. -/
def initState (t : Tess) : EngState :=
  { queue := [t], qsize := 1, res := 0 }

/-- Outcome of `with_rediscretization` over the whole batch: the final result
array, or the propagated `ValueError` together with the state of the
caller's result array at the moment of the raise. -/
inductive RunOut where
  | ok (result : List ℚ)
  | err (msg : String) (result : List ℚ)
  | stalled
  deriving DecidableEq

/-- The engine `with_rediscretization` (source lines 614-698) on a batch of
(point, result-entry) pairs: for each point in order, run the engine from
`initState`; on success commit `result[l] += density*res` and continue; on
the overflow `ValueError` the exception propagates, leaving the current and
all later entries untouched. -/
def with_rediscretization (env : Env) (t : Tess) (density ratio : ℚ)
    (kernel : Point → ℚ → Nodes → ℚ) (fuel : ℕ) :
    List (Point × ℚ) → RunOut
  | [] => RunOut.ok []
  | pr :: rest =>
    match engineLoop env ratio pr.1 kernel fuel (initState t) with
    | LoopOut.ok res =>
      match with_rediscretization env t density ratio kernel fuel rest with
      | RunOut.ok out => RunOut.ok ((pr.2 + density * res) :: out)
      | RunOut.err m out => RunOut.err m ((pr.2 + density * res) :: out)
      | RunOut.stalled => RunOut.stalled
    | LoopOut.overflow => RunOut.err overflowMsg (pr.2 :: rest.map Prod.snd)
    | LoopOut.stalled _ => RunOut.stalled

/-- The operation `gzz` (source lines 596-609): the adaptive vertical-gradient field,
`with_rediscretization` wired to `kernelzz`. -/
def gzz (env : Env) (t : Tess) (density ratio : ℚ) (fuel : ℕ)
    (pts : List (Point × ℚ)) : RunOut :=
  with_rediscretization env t density ratio (kernelzz env) fuel pts

/-- The value the engine accumulates for one point when its run succeeds
(`0` in the error/stalled cases); used to state what a committed result
entry contains. -/
def pointValue (env : Env) (t : Tess) (ratio : ℚ)
    (kernel : Point → ℚ → Nodes → ℚ) (fuel : ℕ) (pt : Point) : ℚ :=
  match engineLoop env ratio pt kernel fuel (initState t) with
  | LoopOut.ok r => r
  | _ => 0

/-- The single-step transition relation of the engine, for reachability
statements about the work list. -/
def StepRel (env : Env) (ratio : ℚ) (pt : Point)
    (kernel : Point → ℚ → Nodes → ℚ) (st st' : EngState) : Prop :=
  engineStep env ratio pt kernel st = StepOut.next st'

/-! ## Small projections used in theorem statements -/

/-- The `qsize` field of the state after a `next` step (`0` otherwise). -/
def stepQsize : StepOut → ℕ
  | StepOut.next st => st.qsize
  | _ => 0

/-- The work-list length after a `next` step (`0` otherwise). -/
def stepQueueLen : StepOut → ℕ
  | StepOut.next st => st.queue.length
  | _ => 0

/-- Whether a step raised the overflow error. -/
def stepIsOverflow : StepOut → Bool
  | StepOut.overflow => true
  | _ => false

/-- Whether an engine run ended in a normal result. -/
def loopIsOk : LoopOut → Bool
  | LoopOut.ok _ => true
  | _ => false

/-- The error message of a classifier result, if any. -/
def errOpt : Except String (ℕ × List ℕ) → Option String
  | Except.error m => some m
  | Except.ok _ => none

/-- Whether a batch run's error, if any, is the queue-overflow message;
`true` on non-error outcomes. -/
def runErrIsOverflow : RunOut → Bool
  | RunOut.err m _ => m == overflowMsg
  | _ => true

/-- The membership predicate of a tesseroid's closed box of bounds. -/
def memT (t : Tess) (x y z : ℚ) : Prop :=
  t.w ≤ x ∧ x ≤ t.e ∧ t.s ≤ y ∧ y ≤ t.n ∧ t.bottom ≤ z ∧ z ≤ t.top

/-- The volume of a tesseroid's box of bounds. -/
def vol (t : Tess) : ℚ :=
  (t.e - t.w) * (t.n - t.s) * (t.top - t.bottom)

/-- The per-axis split factor `nlon` computed by the engine step for the
popped item `t` (source lines 669-670). -/
def nlonOf (env : Env) (ratio : ℚ) (pt : Point) (t : Tess) : ℕ :=
  if (distance_n_size env t pt).1 < ratio * (distance_n_size env t pt).2.1 then 2 else 1

/-- The per-axis split factor `nlat` (source lines 671-672). -/
def nlatOf (env : Env) (ratio : ℚ) (pt : Point) (t : Tess) : ℕ :=
  if (distance_n_size env t pt).1 < ratio * (distance_n_size env t pt).2.2.1 then 2 else 1

/-- The per-axis split factor `nr` (source lines 673-674). -/
def nrOf (env : Env) (ratio : ℚ) (pt : Point) (t : Tess) : ℕ :=
  if (distance_n_size env t pt).1 < ratio * (distance_n_size env t pt).2.2.2 then 2 else 1

/-- The number of axes the engine step flags for splitting on item `t`. -/
def flagCount (env : Env) (ratio : ℚ) (pt : Point) (t : Tess) : ℕ :=
  (if (distance_n_size env t pt).1 < ratio * (distance_n_size env t pt).2.1 then 1 else 0)
    + (if (distance_n_size env t pt).1 < ratio * (distance_n_size env t pt).2.2.1 then 1 else 0)
    + (if (distance_n_size env t pt).1 < ratio * (distance_n_size env t pt).2.2.2 then 1 else 0)

/-! ## Concrete environments and inputs used by witnesses and
counterexamples -/

/-- An environment in which every engine item splits on all three axes:
distances evaluate to `0` and both great-circle extents to
`MEAN_EARTH_RADIUS = 1`. -/
def envSplit : Env :=
  { sin := fun _ => 0, cos := fun _ => 0, sqrt := fun _ => 0,
    atan2 := fun _ _ => 1, pow25 := fun _ => 1, d2r := 1, MEAN_EARTH_RADIUS := 1 }

/-- An environment in which distances evaluate to `10` and extents to `1`, so
no splitting triggers at closeness ratios up to `10`. -/
def envFar : Env :=
  { sin := fun _ => 0, cos := fun _ => 1, sqrt := fun _ => 10,
    atan2 := fun _ _ => 1, pow25 := fun _ => 1, d2r := 1, MEAN_EARTH_RADIUS := 1 }

/-- An environment making the classifier's squared distance land exactly on
the threshold for the inputs below. -/
def envEq : Env :=
  { sin := fun _ => 0, cos := fun _ => 1, sqrt := fun _ => 0,
    atan2 := fun _ _ => 0, pow25 := fun _ => 1, d2r := 1, MEAN_EARTH_RADIUS := 1 }

/-- The unit tesseroid `(w, e, s, n, top, bottom) = (0, 1, 0, 1, 1, 0)`,
which satisfies the ordering invariant. -/
def unitT : Tess := ⟨0, 1, 0, 1, 1, 0⟩

/-- A degenerate tesseroid with `w = e`, violating the ordering invariant. -/
def degT : Tess := ⟨1, 1, 0, 1, 1, 0⟩

/-- The observation point with all coordinates `0`. -/
def pt0 : Point := ⟨0, 0, 0, 0⟩

/-- An observation point sitting above the longitudinal center of `unitT`
(longitude `1/2` radians with `d2r = 1`). -/
def ptMid : Point := ⟨1 / 2, 0, 1, 2⟩

/-- Constant caller arrays used by the classifier counterexample: longitude
`0`, sine-latitude `0`, cosine-latitude `1`, radius `1`. -/
def lonA : ℕ → ℚ := fun _ => 0

/-- See `lonA`. -/
def sinlatA : ℕ → ℚ := fun _ => 0

/-- See `lonA`. -/
def coslatA : ℕ → ℚ := fun _ => 1

/-- See `lonA`. -/
def radiusA : ℕ → ℚ := fun _ => 1

/-- The engine state with `9993` items below the popped `unitT`, at which the
overflow guard is compared: the post-pop size is `9993` and a triple split
pushes `8` children. -/
def deepState : EngState :=
  { queue := unitT :: List.replicate 9993 unitT, qsize := 9994, res := 0 }

/-- The C3 property of one engine step on a popped item `t`, written out: the
per-axis flags hold exactly on `distance < ratio * extent`; a flagless item
is evaluated and consumed; a flagged item (when the guard passes) is replaced
by its pushed children; the children number `nlon*nlat*nr = 2^(flagged)`,
flagged axes are split into two equal halves, unflagged axes stay whole, and
the children exactly tile the parent (containment, coverage, and exact
volume). -/
def StepClaim (env : Env) (ratio : ℚ) (pt : Point)
    (kernel : Point → ℚ → Nodes → ℚ) (t : Tess) (rest : List Tess)
    (qs : ℕ) (res : ℚ) : Prop :=
  ((nlonOf env ratio pt t = 2
      ↔ (distance_n_size env t pt).1 < ratio * (distance_n_size env t pt).2.1)
    ∧ (nlatOf env ratio pt t = 2
      ↔ (distance_n_size env t pt).1 < ratio * (distance_n_size env t pt).2.2.1)
    ∧ (nrOf env ratio pt t = 2
      ↔ (distance_n_size env t pt).1 < ratio * (distance_n_size env t pt).2.2.2))
  ∧ ((ratio * (distance_n_size env t pt).2.1 ≤ (distance_n_size env t pt).1
      ∧ ratio * (distance_n_size env t pt).2.2.1 ≤ (distance_n_size env t pt).1
      ∧ ratio * (distance_n_size env t pt).2.2.2 ≤ (distance_n_size env t pt).1) →
    engineStep env ratio pt kernel ⟨t :: rest, qs, res⟩
      = StepOut.next
          ⟨rest, qs - 1, res + kernel pt (scale_nodes env t).2 (scale_nodes env t).1⟩)
  ∧ (((distance_n_size env t pt).1 < ratio * (distance_n_size env t pt).2.1
      ∨ (distance_n_size env t pt).1 < ratio * (distance_n_size env t pt).2.2.1
      ∨ (distance_n_size env t pt).1 < ratio * (distance_n_size env t pt).2.2.2) →
    qs - 1 + (nlonOf env ratio pt t + nlatOf env ratio pt t + nrOf env ratio pt t)
        ≤ queue_max →
    engineStep env ratio pt kernel ⟨t :: rest, qs, res⟩
      = StepOut.next
          ⟨(splitChildren t (nlonOf env ratio pt t) (nlatOf env ratio pt t)
              (nrOf env ratio pt t)).reverse ++ rest,
            qs - 1 + nlonOf env ratio pt t * nlatOf env ratio pt t * nrOf env ratio pt t,
            res⟩)
  ∧ (splitChildren t (nlonOf env ratio pt t) (nlatOf env ratio pt t)
      (nrOf env ratio pt t)).length
      = nlonOf env ratio pt t * nlatOf env ratio pt t * nrOf env ratio pt t
  ∧ nlonOf env ratio pt t * nlatOf env ratio pt t * nrOf env ratio pt t
      = 2 ^ flagCount env ratio pt t
  ∧ (∀ u ∈ splitChildren t (nlonOf env ratio pt t) (nlatOf env ratio pt t)
      (nrOf env ratio pt t),
      u.e - u.w = (t.e - t.w) / nlonOf env ratio pt t
      ∧ u.n - u.s = (t.n - t.s) / nlatOf env ratio pt t
      ∧ u.top - u.bottom = (t.top - t.bottom) / nrOf env ratio pt t)
  ∧ (nlonOf env ratio pt t = 1 →
      ∀ u ∈ splitChildren t (nlonOf env ratio pt t) (nlatOf env ratio pt t)
        (nrOf env ratio pt t), u.w = t.w ∧ u.e = t.e)
  ∧ (nlatOf env ratio pt t = 1 →
      ∀ u ∈ splitChildren t (nlonOf env ratio pt t) (nlatOf env ratio pt t)
        (nrOf env ratio pt t), u.s = t.s ∧ u.n = t.n)
  ∧ (nrOf env ratio pt t = 1 →
      ∀ u ∈ splitChildren t (nlonOf env ratio pt t) (nlatOf env ratio pt t)
        (nrOf env ratio pt t), u.bottom = t.bottom ∧ u.top = t.top)
  ∧ (∀ u ∈ splitChildren t (nlonOf env ratio pt t) (nlatOf env ratio pt t)
      (nrOf env ratio pt t), ∀ x y z, memT u x y z → memT t x y z)
  ∧ (∀ x y z, memT t x y z →
      ∃ u ∈ splitChildren t (nlonOf env ratio pt t) (nlatOf env ratio pt t)
        (nrOf env ratio pt t), memT u x y z)
  ∧ ((splitChildren t (nlonOf env ratio pt t) (nlatOf env ratio pt t)
      (nrOf env ratio pt t)).map vol).sum = vol t

/-! ## Lemmas about the two-pointer classification loop -/

/-- When no examined squared distance falls below the epsilon, the loop
returns the boundary index and a permutation of its three segments, with the
prefix strictly above the threshold and the suffix at or below it. -/
theorem too_close_loop_ok (d2 : ℕ → ℚ) (value : ℚ) :
    ∀ (n : ℕ) (middle farSeg closeSeg : List ℕ),
      n = middle.length →
      (∀ p ∈ middle, epsTC ≤ d2 p) →
      (∀ p ∈ farSeg, value < d2 p) →
      (∀ p ∈ closeSeg, d2 p ≤ value) →
      ∃ fr bk,
        too_close_loop d2 value n middle farSeg closeSeg
          = Except.ok (fr.length, fr ++ bk) ∧
        (fr ++ bk).Perm (farSeg ++ middle ++ closeSeg) ∧
        (∀ p ∈ fr, value < d2 p) ∧ (∀ p ∈ bk, d2 p ≤ value) := by
  intro n
  induction n with
  | zero =>
    intro middle farSeg closeSeg hlen hmid hfar hclose
    have hnil : middle = [] := by
      cases middle with
      | nil => rfl
      | cons a l => simp at hlen
    subst hnil
    exact ⟨farSeg, closeSeg, rfl, by simp, hfar, hclose⟩
  | succ m ih =>
    intro middle farSeg closeSeg hlen hmid hfar hclose
    cases middle with
    | nil => simp at hlen
    | cons p rest =>
      have hple : epsTC ≤ d2 p := hmid p (by simp)
      have hlen' : m = rest.length := by simpa using hlen
      by_cases hpv : d2 p > value
      · obtain ⟨fr, bk, heq, hperm, hfr, hbk⟩ :=
          ih rest (farSeg ++ [p]) closeSeg hlen'
            (fun q hq => hmid q (by simp [hq]))
            (fun q hq => by
              rcases List.mem_append.1 hq with h | h
              · exact hfar q h
              · simp only [List.mem_singleton] at h
                subst h; exact hpv)
            hclose
        refine ⟨fr, bk, ?_, ?_, hfr, hbk⟩
        · simp only [too_close_loop, if_neg (not_lt.mpr hple), if_pos hpv]
          exact heq
        · refine hperm.trans ?_
          have : (farSeg ++ [p]) ++ rest ++ closeSeg
              = farSeg ++ p :: rest ++ closeSeg := by simp
          rw [this]
      · have hpv' : d2 p ≤ value := not_lt.1 hpv
        cases rest with
        | nil =>
          obtain ⟨fr, bk, heq, hperm, hfr, hbk⟩ :=
            ih [] farSeg (p :: closeSeg) (by simpa using hlen')
              (by simp) hfar
              (fun q hq => by
                rcases List.mem_cons.1 hq with h | h
                · subst h; exact hpv'
                · exact hclose q h)
          refine ⟨fr, bk, ?_, ?_, hfr, hbk⟩
          · simp only [too_close_loop, if_neg (not_lt.mpr hple), if_neg hpv]
            exact heq
          · refine hperm.trans ?_
            rw [show farSeg ++ ([] : List ℕ) ++ p :: closeSeg
                = farSeg ++ [p] ++ closeSeg by simp]
        | cons q rs =>
          have hne : (q :: rs : List ℕ) ≠ [] := List.cons_ne_nil q rs
          have hLperm : (List.getLast (q :: rs) hne :: List.dropLast (q :: rs)).Perm
              (q :: rs) := by
            refine List.Perm.symm ?_
            conv_lhs => rw [(List.dropLast_append_getLast hne).symm]
            exact List.perm_append_singleton _ _
          obtain ⟨fr, bk, heq, hperm, hfr, hbk⟩ :=
            ih (List.getLast (q :: rs) hne :: List.dropLast (q :: rs)) farSeg
              (p :: closeSeg)
              (by simp only [List.length_cons, List.length_dropLast] at hlen' ⊢; omega)
              (fun x hx => by
                have hx' : x ∈ q :: rs := hLperm.mem_iff.1 hx
                exact hmid x (List.mem_cons_of_mem p hx'))
              hfar
              (fun x hx => by
                rcases List.mem_cons.1 hx with h | h
                · subst h; exact hpv'
                · exact hclose x h)
          refine ⟨fr, bk, ?_, ?_, hfr, hbk⟩
          · simp only [too_close_loop, if_neg (not_lt.mpr hple), if_neg hpv]
            exact heq
          · refine hperm.trans ?_
            have e1 : (farSeg ++ (List.getLast (q :: rs) hne :: List.dropLast (q :: rs))
                  ++ p :: closeSeg).Perm
                ((farSeg ++ (q :: rs)) ++ p :: closeSeg) :=
              (hLperm.append_left farSeg).append_right (p :: closeSeg)
            refine e1.trans ?_
            rw [List.append_assoc]
            refine (List.perm_middle.append_left farSeg).trans ?_
            rw [show farSeg ++ p :: ((q :: rs) ++ closeSeg)
                = farSeg ++ p :: q :: rs ++ closeSeg by simp]

/-- The loop raises exactly when some element of the unclassified segment has
squared distance below the epsilon, and then it raises the degenerate-
distance message. -/
theorem too_close_loop_err (d2 : ℕ → ℚ) (value : ℚ) :
    ∀ (n : ℕ) (middle farSeg closeSeg : List ℕ),
      n = middle.length →
      errOpt (too_close_loop d2 value n middle farSeg closeSeg)
        = if middle.any (fun p => decide (d2 p < epsTC)) then some tooCloseMsg
          else none := by
  intro n
  induction n with
  | zero =>
    intro middle farSeg closeSeg hlen
    have hnil : middle = [] := by
      cases middle with
      | nil => rfl
      | cons a l => simp at hlen
    subst hnil
    simp [too_close_loop, errOpt]
  | succ m ih =>
    intro middle farSeg closeSeg hlen
    cases middle with
    | nil => simp at hlen
    | cons p rest =>
      have hlen' : m = rest.length := by simpa using hlen
      by_cases hpe : d2 p < epsTC
      · simp [too_close_loop, if_pos hpe, errOpt, List.any_cons, hpe]
      · by_cases hpv : d2 p > value
        · rw [show too_close_loop d2 value (m + 1) (p :: rest) farSeg closeSeg
              = too_close_loop d2 value m rest (farSeg ++ [p]) closeSeg by
            simp only [too_close_loop, if_neg hpe, if_pos hpv]]
          rw [ih rest (farSeg ++ [p]) closeSeg hlen']
          simp [List.any_cons, hpe]
        · cases rest with
          | nil =>
            rw [show too_close_loop d2 value (m + 1) [p] farSeg closeSeg
                = too_close_loop d2 value m [] farSeg (p :: closeSeg) by
              simp only [too_close_loop, if_neg hpe, if_neg hpv]]
            rw [ih [] farSeg (p :: closeSeg) (by simpa using hlen')]
            simp [List.any_cons, hpe]
          | cons q rs =>
            have hne : (q :: rs : List ℕ) ≠ [] := List.cons_ne_nil q rs
            have hLperm : (List.getLast (q :: rs) hne
                :: List.dropLast (q :: rs)).Perm (q :: rs) := by
              refine List.Perm.symm ?_
              conv_lhs => rw [(List.dropLast_append_getLast hne).symm]
              exact List.perm_append_singleton _ _
            rw [show too_close_loop d2 value (m + 1) (p :: q :: rs) farSeg closeSeg
                = too_close_loop d2 value m
                    (List.getLast (q :: rs) hne :: List.dropLast (q :: rs))
                    farSeg (p :: closeSeg) by
              simp only [too_close_loop, if_neg hpe, if_neg hpv]]
            rw [ih (List.getLast (q :: rs) hne :: List.dropLast (q :: rs)) farSeg
              (p :: closeSeg)
              (by simp only [List.length_cons, List.length_dropLast] at hlen' ⊢; omega)]
            have hany : (List.getLast (q :: rs) hne
                  :: List.dropLast (q :: rs)).any (fun x => decide (d2 x < epsTC))
                = (q :: rs).any (fun x => decide (d2 x < epsTC)) := by
              rw [List.any_eq, List.any_eq, decide_eq_decide]
              constructor
              · rintro ⟨x, hx, hx2⟩; exact ⟨x, hLperm.mem_iff.1 hx, hx2⟩
              · rintro ⟨x, hx, hx2⟩; exact ⟨x, hLperm.mem_iff.2 hx, hx2⟩
            rw [hany]
            simp [List.any_cons, hpe]

/-! ## Claim C2: the `too_close` partition -/

/-- C2 (amended): for every tesseroid, positive ratio, and index list in
which every point's squared distance is at least `1e-20`, `too_close`
returns a boundary index `i` with every index in the prefix `points[:i]` at
squared distance `>= (size*ratio)^2`, every index in the suffix `points[i:]`
at squared distance `<= (size*ratio)^2`, and the output a permutation of the
input. -/
theorem too_close_partition (env : Env) (t : Tess)
    (lon sinlat coslat radius : ℕ → ℚ) (ratio : ℚ) (points : List ℕ)
    (heps : ∀ p ∈ points, epsTC ≤ tc_dist2 env t lon sinlat coslat radius p)
    (hr : 0 < ratio) :
    ∃ i out, too_close env t lon sinlat coslat radius ratio points
        = Except.ok (i, out) ∧
      out.Perm points ∧ i ≤ out.length ∧
      (∀ p ∈ out.take i,
        (tc_size env t * ratio) ^ 2 ≤ tc_dist2 env t lon sinlat coslat radius p) ∧
      (∀ p ∈ out.drop i,
        tc_dist2 env t lon sinlat coslat radius p ≤ (tc_size env t * ratio) ^ 2) := by
  obtain ⟨fr, bk, heq, hperm, hfr, hbk⟩ :=
    too_close_loop_ok (tc_dist2 env t lon sinlat coslat radius)
      ((tc_size env t * ratio) ^ 2) points.length points [] [] rfl heps
      (by simp) (by simp)
  refine ⟨fr.length, fr ++ bk, heq, ?_, ?_, ?_, ?_⟩
  · simpa using hperm
  · simp
  · intro p hp
    rw [List.take_left] at hp
    exact le_of_lt (hfr p hp)
  · intro p hp
    rw [List.drop_left] at hp
    exact hbk p hp

/-- C2 counterexample to the claim as stated: with these concrete inputs the
single point has squared distance exactly equal to the threshold
`(size*ratio)^2`, and `too_close` classifies it into the "close" suffix
(boundary index `0`), so the suffix does not satisfy the claimed strict
`distance^2 < threshold`. -/
theorem too_close_boundary_point_in_suffix :
    too_close envEq ⟨0, 1, 0, 1, 1, 0⟩ lonA sinlatA coslatA radiusA 1 [0]
        = Except.ok (0, [0]) ∧
      (tc_size envEq ⟨0, 1, 0, 1, 1, 0⟩ * 1) ^ 2
        ≤ tc_dist2 envEq ⟨0, 1, 0, 1, 1, 0⟩ lonA sinlatA coslatA radiusA 0 := by
  constructor
  · with_unfolding_all rfl
  · with_unfolding_all decide

/-! ## Claim C6: the degenerate-distance error of `too_close` -/

/-- C6: `too_close` raises if and only if some point of the index list it
classifies has squared straight-line distance below the epsilon `1e-20`, in
which case the raised error is the degenerate-distance `ValueError` and no
boundary index is returned; otherwise no error is raised (the distance is
never clamped). -/
theorem too_close_err_iff_degenerate (env : Env) (t : Tess)
    (lon sinlat coslat radius : ℕ → ℚ) (ratio : ℚ) (points : List ℕ) :
    errOpt (too_close env t lon sinlat coslat radius ratio points)
      = if points.any
            (fun p => decide (tc_dist2 env t lon sinlat coslat radius p < epsTC))
        then some tooCloseMsg else none :=
  too_close_loop_err (tc_dist2 env t lon sinlat coslat radius)
    ((tc_size env t * ratio) ^ 2) points.length points [] [] rfl

/-- C2 witness: the partition theorem applied at a concrete input. -/
theorem too_close_partition_witness :
    (∀ p ∈ [0],
      epsTC ≤ tc_dist2 envFar unitT lonA sinlatA coslatA radiusA p) ∧
    (0 : ℚ) < 1 ∧
    ∃ i out, too_close envFar unitT lonA sinlatA coslatA radiusA 1 [0]
        = Except.ok (i, out) ∧
      out.Perm [0] ∧ i ≤ out.length ∧
      (∀ p ∈ out.take i,
        (tc_size envFar unitT * 1) ^ 2
          ≤ tc_dist2 envFar unitT lonA sinlatA coslatA radiusA p) ∧
      (∀ p ∈ out.drop i,
        tc_dist2 envFar unitT lonA sinlatA coslatA radiusA p
          ≤ (tc_size envFar unitT * 1) ^ 2) :=
  ⟨by with_unfolding_all decide, by norm_num,
    too_close_partition envFar unitT lonA sinlatA coslatA radiusA 1 [0]
      (by with_unfolding_all decide) (by norm_num)⟩

/-! ## Claim C7: `scale_nodes` stays within the tesseroid -/

/-- Both reference abscissas lie strictly inside `(-1, 1)`. -/
theorem nodes_bounds : ∀ i : Fin 2, -1 < nodes i ∧ nodes i < 1 := by
  intro i
  fin_cases i <;> constructor <;> (show _ < _) <;> with_unfolding_all decide

/-- C7: for valid bounds (and the positive constant `d2r`), every scaled node
has longitude strictly between the west and east bounds in radians, latitude
strictly between south and north (in radians), and radius strictly between
the bottom and top bounds offset by the mean planetary radius, and the
Jacobian equals the product of the three extents (angles in radians) divided
by 8. -/
theorem scale_nodes_within (env : Env) (t : Tess) (hv : t.valid)
    (hd : 0 < env.d2r) :
    (∀ i, env.d2r * t.w < (scale_nodes env t).1.lonc i
      ∧ (scale_nodes env t).1.lonc i < env.d2r * t.e) ∧
    (∀ i, env.d2r * t.s < (scale_nodes env t).1.latc i
      ∧ (scale_nodes env t).1.latc i < env.d2r * t.n) ∧
    (∀ i, t.bottom + env.MEAN_EARTH_RADIUS < (scale_nodes env t).1.rc i
      ∧ (scale_nodes env t).1.rc i < t.top + env.MEAN_EARTH_RADIUS) ∧
    (scale_nodes env t).2
      = (env.d2r * (t.e - t.w)) * (env.d2r * (t.n - t.s)) * (t.top - t.bottom) / 8 := by
  obtain ⟨hwe, hsn, hbt⟩ := hv
  have key : ∀ (a b : ℚ), a < b → ∀ i : Fin 2,
      a < (1 / 2) * (b - a) * nodes i + (1 / 2) * (b + a)
      ∧ (1 / 2) * (b - a) * nodes i + (1 / 2) * (b + a) < b := by
    intro a b hab i
    obtain ⟨h1, h2⟩ := nodes_bounds i
    constructor <;> nlinarith
  refine ⟨?_, ?_, ?_, ?_⟩
  · intro i
    obtain ⟨h1, h2⟩ := key t.w t.e hwe i
    exact ⟨by simpa [scale_nodes] using mul_lt_mul_of_pos_left h1 hd,
      by simpa [scale_nodes] using mul_lt_mul_of_pos_left h2 hd⟩
  · intro i
    obtain ⟨h1, h2⟩ := key t.s t.n hsn i
    exact ⟨by simpa [scale_nodes] using mul_lt_mul_of_pos_left h1 hd,
      by simpa [scale_nodes] using mul_lt_mul_of_pos_left h2 hd⟩
  · intro i
    obtain ⟨h1, h2⟩ := key t.bottom t.top hbt i
    constructor
    · show _ < (1 / 2) * (t.top - t.bottom) * nodes i
        + (1 / 2) * (t.top + t.bottom + 2 * env.MEAN_EARTH_RADIUS)
      nlinarith
    · show (1 / 2) * (t.top - t.bottom) * nodes i
        + (1 / 2) * (t.top + t.bottom + 2 * env.MEAN_EARTH_RADIUS) < _
      nlinarith
  · show env.d2r * (t.e - t.w) * env.d2r * (t.n - t.s) * (t.top - t.bottom) * (1 / 8) = _
    ring

/-- C7 witness: `scale_nodes_within` applied to the unit tesseroid. -/
theorem scale_nodes_within_witness :
    unitT.valid ∧ (0 : ℚ) < envFar.d2r ∧
    ((∀ i, envFar.d2r * unitT.w < (scale_nodes envFar unitT).1.lonc i
      ∧ (scale_nodes envFar unitT).1.lonc i < envFar.d2r * unitT.e) ∧
    (∀ i, envFar.d2r * unitT.s < (scale_nodes envFar unitT).1.latc i
      ∧ (scale_nodes envFar unitT).1.latc i < envFar.d2r * unitT.n) ∧
    (∀ i, unitT.bottom + envFar.MEAN_EARTH_RADIUS < (scale_nodes envFar unitT).1.rc i
      ∧ (scale_nodes envFar unitT).1.rc i < unitT.top + envFar.MEAN_EARTH_RADIUS) ∧
    (scale_nodes envFar unitT).2
      = (envFar.d2r * (unitT.e - unitT.w)) * (envFar.d2r * (unitT.n - unitT.s))
          * (unitT.top - unitT.bottom) / 8) :=
  ⟨by with_unfolding_all decide, by with_unfolding_all decide,
    scale_nodes_within envFar unitT (by with_unfolding_all decide)
      (by with_unfolding_all decide)⟩

/-! ## Claim C8: mirror symmetry of the potential above the center -/

/-- C8: for a point directly above the tesseroid's longitudinal center
(tesseroid-frame longitude equal to the mean of west and east, point
longitude its radian image), the potential contribution is invariant under
replacing the bounds `(w, e)` by `(2*lon - e, 2*lon - w)` with all other
data fixed. -/
theorem potential_mirror (env : Env) (t : Tess) (density : ℚ) (pt : Point)
    (lonDeg : ℚ) (hc : lonDeg = (t.w + t.e) / 2)
    (hpt : pt.lon = env.d2r * lonDeg) :
    potentialPoint env
        ⟨2 * lonDeg - t.e, 2 * lonDeg - t.w, t.s, t.n, t.top, t.bottom⟩ density pt
      = potentialPoint env t density pt := by
  have hw : 2 * lonDeg - t.e = t.w := by rw [hc]; ring
  have he : 2 * lonDeg - t.w = t.e := by rw [hc]; ring
  rw [hw, he]

/-- C8 witness: the mirror symmetry applied to the unit tesseroid and the
point above its center. -/
theorem potential_mirror_witness :
    (1 / 2 : ℚ) = (unitT.w + unitT.e) / 2 ∧
    ptMid.lon = envFar.d2r * (1 / 2) ∧
    potentialPoint envFar
        ⟨2 * (1 / 2) - unitT.e, 2 * (1 / 2) - unitT.w,
          unitT.s, unitT.n, unitT.top, unitT.bottom⟩ 3 ptMid
      = potentialPoint envFar unitT 3 ptMid :=
  ⟨by with_unfolding_all decide, by with_unfolding_all decide,
    potential_mirror envFar unitT 3 ptMid (1 / 2)
      (by with_unfolding_all decide) (by with_unfolding_all decide)⟩

/-! ## Lemmas about one engine step -/

/-- When no axis is flagged, the popped item is evaluated directly: the
kernel value is accumulated and the item is consumed (the new work list is
exactly the remainder). -/
theorem engineStep_eval (env : Env) (ratio : ℚ) (pt : Point)
    (kernel : Point → ℚ → Nodes → ℚ) (t : Tess) (rest : List Tess)
    (qs : ℕ) (res : ℚ)
    (h1 : ratio * (distance_n_size env t pt).2.1 ≤ (distance_n_size env t pt).1)
    (h2 : ratio * (distance_n_size env t pt).2.2.1 ≤ (distance_n_size env t pt).1)
    (h3 : ratio * (distance_n_size env t pt).2.2.2 ≤ (distance_n_size env t pt).1) :
    engineStep env ratio pt kernel ⟨t :: rest, qs, res⟩
      = StepOut.next
          ⟨rest, qs - 1, res + kernel pt (scale_nodes env t).2 (scale_nodes env t).1⟩ := by
  show (if (if (distance_n_size env t pt).1 < ratio * (distance_n_size env t pt).2.1
            then 2 else 1) = 1
          ∧ (if (distance_n_size env t pt).1 < ratio * (distance_n_size env t pt).2.2.1
            then 2 else 1) = 1
          ∧ (if (distance_n_size env t pt).1 < ratio * (distance_n_size env t pt).2.2.2
            then 2 else 1) = 1
        then _ else _) = _
  simp only [if_neg (not_lt.mpr h1), if_neg (not_lt.mpr h2), if_neg (not_lt.mpr h3)]
  rw [if_pos ⟨trivial, trivial, trivial⟩]

/-- When at least one axis is flagged and the overflow guard passes, the
children are pushed: the new work list is the reversed child list on top of
the remainder and the size counter grows by the child count. -/
theorem engineStep_split (env : Env) (ratio : ℚ) (pt : Point)
    (kernel : Point → ℚ → Nodes → ℚ) (t : Tess) (rest : List Tess)
    (qs : ℕ) (res : ℚ)
    (hs : ¬(nlonOf env ratio pt t = 1 ∧ nlatOf env ratio pt t = 1
      ∧ nrOf env ratio pt t = 1))
    (hg : qs - 1 + (nlonOf env ratio pt t + nlatOf env ratio pt t
      + nrOf env ratio pt t) ≤ queue_max) :
    engineStep env ratio pt kernel ⟨t :: rest, qs, res⟩
      = StepOut.next
          ⟨(splitChildren t (nlonOf env ratio pt t) (nlatOf env ratio pt t)
              (nrOf env ratio pt t)).reverse ++ rest,
            qs - 1 + nlonOf env ratio pt t * nlatOf env ratio pt t * nrOf env ratio pt t,
            res⟩ := by
  show (if nlonOf env ratio pt t = 1 ∧ nlatOf env ratio pt t = 1
          ∧ nrOf env ratio pt t = 1
        then _ else _) = _
  rw [if_neg hs]
  show (if queue_max < qs - 1 + (nlonOf env ratio pt t + nlatOf env ratio pt t
          + nrOf env ratio pt t)
        then _ else _) = _
  rw [if_neg (not_lt.mpr hg)]
  rfl

/-- When at least one axis is flagged and the guard trips, the step raises
the overflow error. -/
theorem engineStep_overflow_raise (env : Env) (ratio : ℚ) (pt : Point)
    (kernel : Point → ℚ → Nodes → ℚ) (t : Tess) (rest : List Tess)
    (qs : ℕ) (res : ℚ)
    (hs : ¬(nlonOf env ratio pt t = 1 ∧ nlatOf env ratio pt t = 1
      ∧ nrOf env ratio pt t = 1))
    (hg : queue_max < qs - 1 + (nlonOf env ratio pt t + nlatOf env ratio pt t
      + nrOf env ratio pt t)) :
    engineStep env ratio pt kernel ⟨t :: rest, qs, res⟩ = StepOut.overflow := by
  show (if nlonOf env ratio pt t = 1 ∧ nlatOf env ratio pt t = 1
          ∧ nrOf env ratio pt t = 1
        then _ else _) = _
  rw [if_neg hs]
  show (if queue_max < qs - 1 + (nlonOf env ratio pt t + nlatOf env ratio pt t
          + nrOf env ratio pt t)
        then _ else _) = _
  rw [if_pos hg]

/-! ## Claim C4: far points take the direct kernel path -/

/-- C4: when no splitting triggers on the original tesseroid (distance at
least `ratio` times each of the three extents), the adaptive engine run for
that point succeeds with exactly the direct `kernelzz` evaluation on the
unsplit tesseroid's scaled quadrature nodes, and `gzz` adds exactly
`density` times that value to the point's result entry. -/
theorem gzz_direct_when_far (env : Env) (t : Tess) (density ratio : ℚ)
    (pt : Point) (r0 : ℚ) (fuel : ℕ)
    (h1 : ratio * (distance_n_size env t pt).2.1 ≤ (distance_n_size env t pt).1)
    (h2 : ratio * (distance_n_size env t pt).2.2.1 ≤ (distance_n_size env t pt).1)
    (h3 : ratio * (distance_n_size env t pt).2.2.2 ≤ (distance_n_size env t pt).1) :
    engineLoop env ratio pt (kernelzz env) (fuel + 2) (initState t)
      = LoopOut.ok (kernelzz env pt (scale_nodes env t).2 (scale_nodes env t).1) ∧
    gzz env t density ratio (fuel + 2) [(pt, r0)]
      = RunOut.ok
          [r0 + density * kernelzz env pt (scale_nodes env t).2 (scale_nodes env t).1] := by
  have hstep : engineStep env ratio pt (kernelzz env) (initState t)
      = StepOut.next
          ⟨[], 1 - 1,
            0 + kernelzz env pt (scale_nodes env t).2 (scale_nodes env t).1⟩ :=
    engineStep_eval env ratio pt (kernelzz env) t [] 1 0 h1 h2 h3
  have hloop : engineLoop env ratio pt (kernelzz env) (fuel + 2) (initState t)
      = LoopOut.ok (kernelzz env pt (scale_nodes env t).2 (scale_nodes env t).1) := by
    show (match engineStep env ratio pt (kernelzz env) (initState t) with
      | StepOut.done r => LoopOut.ok r
      | StepOut.overflow => LoopOut.overflow
      | StepOut.next st' => engineLoop env ratio pt (kernelzz env) (fuel + 1) st') = _
    rw [hstep]
    show LoopOut.ok (0 + kernelzz env pt (scale_nodes env t).2 (scale_nodes env t).1) = _
    rw [zero_add]
  refine ⟨hloop, ?_⟩
  show (match engineLoop env ratio pt (kernelzz env) (fuel + 2) (initState t) with
    | LoopOut.ok res =>
      (match with_rediscretization env t density ratio (kernelzz env) (fuel + 2)
          ([] : List (Point × ℚ)) with
        | RunOut.ok out => RunOut.ok ((r0 + density * res) :: out)
        | RunOut.err m out => RunOut.err m ((r0 + density * res) :: out)
        | RunOut.stalled => RunOut.stalled)
    | LoopOut.overflow =>
      RunOut.err overflowMsg (r0 :: ([] : List (Point × ℚ)).map Prod.snd)
    | LoopOut.stalled _ => RunOut.stalled) = _
  rw [hloop]
  rfl

/-- C4 witness: the direct-path theorem applied in an environment where the
distance (10) dominates `ratio` times every extent (1). -/
theorem gzz_direct_when_far_witness :
    1 * (distance_n_size envFar unitT pt0).2.1 ≤ (distance_n_size envFar unitT pt0).1 ∧
    1 * (distance_n_size envFar unitT pt0).2.2.1 ≤ (distance_n_size envFar unitT pt0).1 ∧
    1 * (distance_n_size envFar unitT pt0).2.2.2 ≤ (distance_n_size envFar unitT pt0).1 ∧
    (engineLoop envFar 1 pt0 (kernelzz envFar) (3 + 2) (initState unitT)
      = LoopOut.ok (kernelzz envFar pt0 (scale_nodes envFar unitT).2
          (scale_nodes envFar unitT).1) ∧
    gzz envFar unitT 5 1 (3 + 2) [(pt0, 7)]
      = RunOut.ok
          [7 + 5 * kernelzz envFar pt0 (scale_nodes envFar unitT).2
            (scale_nodes envFar unitT).1]) :=
  ⟨by with_unfolding_all decide, by with_unfolding_all decide,
    by with_unfolding_all decide,
    gzz_direct_when_far envFar unitT 5 1 pt0 7 3
      (by with_unfolding_all decide) (by with_unfolding_all decide)
      (by with_unfolding_all decide)⟩

/-! ## Claim C9: the core does not validate bounds -/

/-- C9 counterexample to the claim as stated: on a tesseroid violating the
ordering invariant (`w = e`), the adaptive engine does not fail fast with
any error: the run completes normally. -/
theorem no_invalid_bounds_error_on_degenerate :
    loopIsOk (engineLoop envFar 1 pt0 (kernelzz envFar) 5 (initState degT)) = true
      ∧ Tess.validb degT = false := by
  constructor
  · with_unfolding_all rfl
  · with_unfolding_all rfl

/-- C9 (amended): the core performs no bounds validation: the only error the
adaptive engine ever reports is the work-list overflow, and on a tesseroid
with `w = e` (ordering invariant violated) the engine silently computes a
normal result. -/
theorem engine_never_raises_invalid_bounds :
    (∀ (env : Env) (t : Tess) (density ratio : ℚ)
      (kernel : Point → ℚ → Nodes → ℚ) (fuel : ℕ) (L : List (Point × ℚ)),
      runErrIsOverflow (with_rediscretization env t density ratio kernel fuel L)
        = true) ∧
    gzz envFar degT 1 1 5 [(pt0, 0)]
      = RunOut.ok
          [0 + 1 * kernelzz envFar pt0 (scale_nodes envFar degT).2
            (scale_nodes envFar degT).1] := by
  constructor
  · intro env t density ratio kernel fuel L
    induction L with
    | nil => rfl
    | cons pr rest ih =>
      show runErrIsOverflow
        (match engineLoop env ratio pr.1 kernel fuel (initState t) with
          | LoopOut.ok res =>
            (match with_rediscretization env t density ratio kernel fuel rest with
              | RunOut.ok out => RunOut.ok ((pr.2 + density * res) :: out)
              | RunOut.err m out => RunOut.err m ((pr.2 + density * res) :: out)
              | RunOut.stalled => RunOut.stalled)
          | LoopOut.overflow => RunOut.err overflowMsg (pr.2 :: rest.map Prod.snd)
          | LoopOut.stalled _ => RunOut.stalled) = true
      cases engineLoop env ratio pr.1 kernel fuel (initState t) with
      | ok res =>
        cases h2 : with_rediscretization env t density ratio kernel fuel rest with
        | ok out => rfl
        | err m out => rw [h2] at ih; exact ih
        | stalled => rfl
      | overflow =>
        show (overflowMsg == overflowMsg) = true
        simp
      | stalled st => rfl
  · with_unfolding_all rfl

/-! ## Lemmas about the split children -/

/-- Membership in the child list, unfolded. -/
theorem mem_splitChildren {t : Tess} {a b c : ℕ} {u : Tess} :
    u ∈ splitChildren t a b c
      ↔ ∃ i < a, ∃ j < b, ∃ k < c, splitChild t a b c i j k = u := by
  simp [splitChildren]

/-- The number of children equals the product of the per-axis factors. -/
theorem splitChildren_length (t : Tess) (a b c : ℕ) :
    (splitChildren t a b c).length = a * b * c := by
  simp [splitChildren, Function.comp_def, List.length_flatMap, List.map_const',
    List.sum_replicate, smul_eq_mul, Nat.mul_assoc]

/-- The two per-axis factors are `1` or `2`. -/
theorem nlonOf_one_or_two (env : Env) (ratio : ℚ) (pt : Point) (t : Tess) :
    (nlonOf env ratio pt t = 1 ∨ nlonOf env ratio pt t = 2)
      ∧ (nlatOf env ratio pt t = 1 ∨ nlatOf env ratio pt t = 2)
      ∧ (nrOf env ratio pt t = 1 ∨ nrOf env ratio pt t = 2) := by
  unfold nlonOf nlatOf nrOf
  refine ⟨?_, ?_, ?_⟩ <;> split_ifs <;> simp

/-- A child of a valid tesseroid with positive per-axis factors is valid. -/
theorem splitChild_valid (t : Tess) (hv : t.valid) (a b c : ℕ)
    (ha : 0 < a) (hb : 0 < b) (hc : 0 < c) (i j k : ℕ) :
    (splitChild t a b c i j k).valid := by
  obtain ⟨hwe, hsn, hbt⟩ := hv
  have hqa : (0 : ℚ) < a := by exact_mod_cast ha
  have hqb : (0 : ℚ) < b := by exact_mod_cast hb
  have hqc : (0 : ℚ) < c := by exact_mod_cast hc
  have hlon : (0 : ℚ) < (t.e - t.w) / a := div_pos (by linarith) hqa
  have hlat : (0 : ℚ) < (t.n - t.s) / b := div_pos (by linarith) hqb
  have hr : (0 : ℚ) < (t.top - t.bottom) / c := div_pos (by linarith) hqc
  refine ⟨?_, ?_, ?_⟩ <;> simp only [splitChild] <;> nlinarith

/-- Every child of a valid tesseroid produced by the splitting loop is
valid. -/
theorem splitChildren_valid (t : Tess) (hv : t.valid) (a b c : ℕ)
    (ha : 0 < a) (hb : 0 < b) (hc : 0 < c) :
    ∀ u ∈ splitChildren t a b c, u.valid := by
  intro u hu
  obtain ⟨i, _, j, _, k, _, rfl⟩ := mem_splitChildren.1 hu
  exact splitChild_valid t hv a b c ha hb hc i j k

/-! ## Claim C10: the ordering invariant is preserved on the work list -/

/-- One engine step preserves validity of all work-list items. -/
theorem engineStep_preserves_valid (env : Env) (ratio : ℚ) (pt : Point)
    (kernel : Point → ℚ → Nodes → ℚ) (st st' : EngState)
    (hrel : StepRel env ratio pt kernel st st')
    (hval : ∀ u ∈ st.queue, u.valid) : ∀ u ∈ st'.queue, u.valid := by
  obtain ⟨queue, qs, res⟩ := st
  cases queue with
  | nil => exact absurd hrel (by simp [StepRel, engineStep])
  | cons t rest =>
    have hvt : t.valid := hval t (by simp)
    have hvrest : ∀ u ∈ rest, u.valid := fun u hu => hval u (by simp [hu])
    by_cases hflag : nlonOf env ratio pt t = 1 ∧ nlatOf env ratio pt t = 1
        ∧ nrOf env ratio pt t = 1
    · have h1 : ratio * (distance_n_size env t pt).2.1 ≤ (distance_n_size env t pt).1 := by
        have := hflag.1
        unfold nlonOf at this
        by_contra hlt
        rw [if_pos (not_le.1 hlt)] at this
        exact absurd this (by norm_num)
      have h2 : ratio * (distance_n_size env t pt).2.2.1 ≤ (distance_n_size env t pt).1 := by
        have := hflag.2.1
        unfold nlatOf at this
        by_contra hlt
        rw [if_pos (not_le.1 hlt)] at this
        exact absurd this (by norm_num)
      have h3 : ratio * (distance_n_size env t pt).2.2.2 ≤ (distance_n_size env t pt).1 := by
        have := hflag.2.2
        unfold nrOf at this
        by_contra hlt
        rw [if_pos (not_le.1 hlt)] at this
        exact absurd this (by norm_num)
      have heq := engineStep_eval env ratio pt kernel t rest qs res h1 h2 h3
      rw [StepRel, heq] at hrel
      cases hrel
      exact hvrest
    · by_cases hg : qs - 1 + (nlonOf env ratio pt t + nlatOf env ratio pt t
          + nrOf env ratio pt t) ≤ queue_max
      · have heq := engineStep_split env ratio pt kernel t rest qs res hflag hg
        rw [StepRel, heq] at hrel
        cases hrel
        intro u hu
        rcases List.mem_append.1 hu with hu | hu
        · rw [List.mem_reverse] at hu
          obtain ⟨hl1, hl2, hl3⟩ := nlonOf_one_or_two env ratio pt t
          refine splitChildren_valid t hvt _ _ _ ?_ ?_ ?_ u hu <;>
            rcases hl1 with h | h <;> rcases hl2 with h' | h' <;>
              rcases hl3 with h'' | h'' <;> omega
        · exact hvrest u hu
      · have heq := engineStep_overflow_raise env ratio pt kernel t rest qs res hflag
          (not_le.1 hg)
        rw [StepRel, heq] at hrel
        cases hrel

/-- C10: if the original tesseroid satisfies the ordering invariant, every
work item ever reachable on the engine's work list satisfies it too: no
degenerate sub-cell is ever pushed or evaluated. -/
theorem work_list_items_valid (env : Env) (ratio : ℚ) (pt : Point)
    (kernel : Point → ℚ → Nodes → ℚ) (t : Tess) (hv : t.valid)
    (st' : EngState)
    (hreach : Relation.ReflTransGen (StepRel env ratio pt kernel) (initState t) st') :
    ∀ u ∈ st'.queue, u.valid := by
  induction hreach with
  | refl =>
    intro u hu
    simp only [initState, List.mem_singleton] at hu
    subst hu; exact hv
  | tail hab hbc ih =>
    exact engineStep_preserves_valid env ratio pt kernel _ _ hbc ih

/-- C10 witness: the invariant theorem applied to the initial state of the
unit tesseroid. -/
theorem work_list_items_valid_witness :
    unitT.valid ∧ ∀ u ∈ (initState unitT).queue, u.valid :=
  ⟨by with_unfolding_all decide,
    work_list_items_valid envSplit 1 pt0 (kernelzz envSplit) unitT
      (by with_unfolding_all decide) (initState unitT) Relation.ReflTransGen.refl⟩

/-! ## Tiling lemmas for the split children -/

/-- A child sub-interval of a positive-length interval stays inside it. -/
theorem seg_sub (w e : ℚ) (hwe : w < e) (a : ℕ) (ha : 0 < a) (i : ℕ)
    (hi : i < a) (x : ℚ) (hx1 : w + i * ((e - w) / a) ≤ x)
    (hx2 : x ≤ w + (i + 1) * ((e - w) / a)) : w ≤ x ∧ x ≤ e := by
  have hqa : (0 : ℚ) < a := by exact_mod_cast ha
  have key : (a : ℚ) * ((e - w) / a) = e - w := by field_simp
  have hpos : (0 : ℚ) < (e - w) / a := div_pos (by linarith) hqa
  have hia : ((i : ℚ) + 1) ≤ (a : ℚ) := by exact_mod_cast hi
  have hi0 : (0 : ℚ) ≤ (i : ℚ) := Nat.cast_nonneg i
  constructor
  · nlinarith
  · nlinarith

/-- For one or two equal pieces, every point of the interval lies in some
piece. -/
theorem seg_cover (w e x : ℚ) (a : ℕ) (ha : a = 1 ∨ a = 2)
    (hx1 : w ≤ x) (hx2 : x ≤ e) :
    ∃ i < a, w + i * ((e - w) / a) ≤ x ∧ x ≤ w + (i + 1) * ((e - w) / a) := by
  rcases ha with rfl | rfl
  · refine ⟨0, Nat.one_pos, ?_, ?_⟩ <;> push_cast <;> norm_num <;> linarith
  · by_cases hmid : x ≤ w + (e - w) / 2
    · refine ⟨0, by norm_num, ?_, ?_⟩ <;> push_cast <;> norm_num <;> linarith
    · refine ⟨1, by norm_num, ?_, ?_⟩ <;> push_cast <;> linarith

/-- Each child's per-axis extent is the parent's divided by that axis's
factor: flagged axes are halved exactly, unflagged axes keep their extent. -/
theorem splitChildren_extents (t : Tess) (a b c : ℕ) :
    ∀ u ∈ splitChildren t a b c,
      u.e - u.w = (t.e - t.w) / a ∧ u.n - u.s = (t.n - t.s) / b
        ∧ u.top - u.bottom = (t.top - t.bottom) / c := by
  intro u hu
  obtain ⟨i, _, j, _, k, _, rfl⟩ := mem_splitChildren.1 hu
  refine ⟨?_, ?_, ?_⟩ <;> simp only [splitChild] <;> ring

/-- An axis with factor `1` stays whole in every child. -/
theorem splitChildren_whole (t : Tess) (a b c : ℕ) :
    (a = 1 → ∀ u ∈ splitChildren t a b c, u.w = t.w ∧ u.e = t.e) ∧
    (b = 1 → ∀ u ∈ splitChildren t a b c, u.s = t.s ∧ u.n = t.n) ∧
    (c = 1 → ∀ u ∈ splitChildren t a b c, u.bottom = t.bottom ∧ u.top = t.top) := by
  refine ⟨?_, ?_, ?_⟩ <;> rintro rfl u hu <;>
    obtain ⟨i, hi, j, hj, k, hk, rfl⟩ := mem_splitChildren.1 hu
  · have : i = 0 := by omega
    subst this
    constructor <;> simp only [splitChild] <;> push_cast <;> ring
  · have : j = 0 := by omega
    subst this
    constructor <;> simp only [splitChild] <;> push_cast <;> ring
  · have : k = 0 := by omega
    subst this
    constructor <;> simp only [splitChild] <;> push_cast <;> ring

/-- Every child box is contained in the parent box. -/
theorem splitChildren_sub (t : Tess) (hv : t.valid) (a b c : ℕ)
    (ha : 0 < a) (hb : 0 < b) (hc : 0 < c) :
    ∀ u ∈ splitChildren t a b c, ∀ x y z, memT u x y z → memT t x y z := by
  obtain ⟨hwe, hsn, hbt⟩ := hv
  intro u hu x y z hm
  obtain ⟨i, hi, j, hj, k, hk, rfl⟩ := mem_splitChildren.1 hu
  obtain ⟨m1, m2, m3, m4, m5, m6⟩ := hm
  simp only [splitChild] at m1 m2 m3 m4 m5 m6
  obtain ⟨g1, g2⟩ := seg_sub t.w t.e hwe a ha i hi x m1 m2
  obtain ⟨g3, g4⟩ := seg_sub t.s t.n hsn b hb j hj y m3 m4
  obtain ⟨g5, g6⟩ := seg_sub t.bottom t.top hbt c hc k hk z m5 m6
  exact ⟨g1, g2, g3, g4, g5, g6⟩

/-- Every point of the parent box lies in some child box. -/
theorem splitChildren_cover (t : Tess) (a b c : ℕ)
    (ha : a = 1 ∨ a = 2) (hb : b = 1 ∨ b = 2) (hc : c = 1 ∨ c = 2) :
    ∀ x y z, memT t x y z → ∃ u ∈ splitChildren t a b c, memT u x y z := by
  intro x y z hm
  obtain ⟨m1, m2, m3, m4, m5, m6⟩ := hm
  obtain ⟨i, hi, hx1, hx2⟩ := seg_cover t.w t.e x a ha m1 m2
  obtain ⟨j, hj, hy1, hy2⟩ := seg_cover t.s t.n y b hb m3 m4
  obtain ⟨k, hk, hz1, hz2⟩ := seg_cover t.bottom t.top z c hc m5 m6
  refine ⟨splitChild t a b c i j k,
    mem_splitChildren.2 ⟨i, hi, j, hj, k, hk, rfl⟩, ?_⟩
  exact ⟨hx1, hx2, hy1, hy2, hz1, hz2⟩

/-- The children's volumes sum to the parent's volume. -/
theorem splitChildren_vol (t : Tess) (a b c : ℕ)
    (ha : a = 1 ∨ a = 2) (hb : b = 1 ∨ b = 2) (hc : c = 1 ∨ c = 2) :
    ((splitChildren t a b c).map vol).sum = vol t := by
  rcases ha with rfl | rfl <;> rcases hb with rfl | rfl <;> rcases hc with rfl | rfl <;>
    simp [splitChildren, splitChild, vol, List.range_succ] <;> ring

/-- The product of the per-axis factors is two to the number of flagged
axes. -/
theorem prod_factors_eq_two_pow (env : Env) (ratio : ℚ) (pt : Point) (t : Tess) :
    nlonOf env ratio pt t * nlatOf env ratio pt t * nrOf env ratio pt t
      = 2 ^ flagCount env ratio pt t := by
  unfold nlonOf nlatOf nrOf flagCount
  split_ifs <;> norm_num

/-- The flag value is `2` exactly on the source's splitting condition. -/
theorem nlonOf_eq_two_iff (env : Env) (ratio : ℚ) (pt : Point) (t : Tess) :
    (nlonOf env ratio pt t = 2
      ↔ (distance_n_size env t pt).1 < ratio * (distance_n_size env t pt).2.1)
    ∧ (nlatOf env ratio pt t = 2
      ↔ (distance_n_size env t pt).1 < ratio * (distance_n_size env t pt).2.2.1)
    ∧ (nrOf env ratio pt t = 2
      ↔ (distance_n_size env t pt).1 < ratio * (distance_n_size env t pt).2.2.2) := by
  unfold nlonOf nlatOf nrOf
  refine ⟨?_, ?_, ?_⟩ <;> split_ifs with h <;> simp [h]

/-! ## Claim C3: the behavior of one engine step -/

/-- C3: in every step of the engine on a valid popped item, each axis is
flagged exactly when `distance < ratio * extent`; a flagless item is
evaluated directly and consumed (never requeued); a flagged item whose guard
passes is split, each flagged axis into exactly 2 equal halves with
unflagged axes whole, producing `2^(flagged axes)` children, all pushed on
the work list, and the children exactly tile the parent's bounds. -/
theorem engine_step_behavior (env : Env) (ratio : ℚ) (pt : Point)
    (kernel : Point → ℚ → Nodes → ℚ) (t : Tess) (rest : List Tess)
    (qs : ℕ) (res : ℚ) (hv : t.valid) :
    StepClaim env ratio pt kernel t rest qs res := by
  obtain ⟨ho1, ho2, ho3⟩ := nlonOf_one_or_two env ratio pt t
  have hpos1 : 0 < nlonOf env ratio pt t := by rcases ho1 with h | h <;> omega
  have hpos2 : 0 < nlatOf env ratio pt t := by rcases ho2 with h | h <;> omega
  have hpos3 : 0 < nrOf env ratio pt t := by rcases ho3 with h | h <;> omega
  refine ⟨nlonOf_eq_two_iff env ratio pt t, ?_, ?_,
    splitChildren_length t _ _ _, prod_factors_eq_two_pow env ratio pt t,
    splitChildren_extents t _ _ _,
    (splitChildren_whole t _ _ _).1, (splitChildren_whole t _ _ _).2.1,
    (splitChildren_whole t _ _ _).2.2,
    splitChildren_sub t hv _ _ _ hpos1 hpos2 hpos3,
    splitChildren_cover t _ _ _ ho1 ho2 ho3,
    splitChildren_vol t _ _ _ ho1 ho2 ho3⟩
  · rintro ⟨h1, h2, h3⟩
    exact engineStep_eval env ratio pt kernel t rest qs res h1 h2 h3
  · intro hlt hg
    refine engineStep_split env ratio pt kernel t rest qs res ?_ hg
    rintro ⟨e1, e2, e3⟩
    obtain ⟨i1, i2, i3⟩ := nlonOf_eq_two_iff env ratio pt t
    rcases hlt with h | h | h
    · rw [i1.2 h] at e1; exact absurd e1 (by norm_num)
    · rw [i2.2 h] at e2; exact absurd e2 (by norm_num)
    · rw [i3.2 h] at e3; exact absurd e3 (by norm_num)

/-- C3 witness: the step-behavior theorem applied to the unit tesseroid. -/
theorem engine_step_behavior_witness :
    unitT.valid ∧ StepClaim envSplit 1 pt0 (kernelzz envSplit) unitT [] 1 0 :=
  ⟨by with_unfolding_all decide,
    engine_step_behavior envSplit 1 pt0 (kernelzz envSplit) unitT [] 1 0
      (by with_unfolding_all decide)⟩

/-! ## Claim C1: the overflow guard compares the sum, not the child count -/

/-- C1: at a work-list state of size 9994 whose popped item splits on all
three axes, the overflow guard (which compares `queue_size + nlon + nlat +
nr = 9999` against the capacity 10000) passes, yet `nlon*nlat*nr = 8`
children are pushed: the step does not raise, and the resulting work list
holds 10001 items — one more than the fixed capacity — so a child is
written past the capacity without the overflow error being raised. -/
theorem overflow_guard_misses_triple_split :
    engineStep envSplit 1 pt0 (kernelzz envSplit) deepState
      = StepOut.next
          ⟨(splitChildren unitT 2 2 2).reverse ++ List.replicate 9993 unitT,
            10001, 0⟩
    ∧ stepQsize (engineStep envSplit 1 pt0 (kernelzz envSplit) deepState) = 10001
    ∧ stepQueueLen (engineStep envSplit 1 pt0 (kernelzz envSplit) deepState) = 10001
    ∧ queue_max < stepQsize (engineStep envSplit 1 pt0 (kernelzz envSplit) deepState)
    ∧ stepIsOverflow (engineStep envSplit 1 pt0 (kernelzz envSplit) deepState)
        = false := by
  have hnl : nlonOf envSplit 1 pt0 unitT = 2 := by with_unfolding_all rfl
  have hnt : nlatOf envSplit 1 pt0 unitT = 2 := by with_unfolding_all rfl
  have hnr : nrOf envSplit 1 pt0 unitT = 2 := by with_unfolding_all rfl
  have hs : ¬(nlonOf envSplit 1 pt0 unitT = 1 ∧ nlatOf envSplit 1 pt0 unitT = 1
      ∧ nrOf envSplit 1 pt0 unitT = 1) := by
    rw [hnl]
    rintro ⟨h, -, -⟩
    exact absurd h (by norm_num)
  have hg : (9994 : ℕ) - 1 + (nlonOf envSplit 1 pt0 unitT
      + nlatOf envSplit 1 pt0 unitT + nrOf envSplit 1 pt0 unitT) ≤ queue_max := by
    rw [hnl, hnt, hnr]
    norm_num [queue_max]
  have h1 := engineStep_split envSplit 1 pt0 (kernelzz envSplit) unitT
    (List.replicate 9993 unitT) 9994 0 hs hg
  rw [hnl, hnt, hnr] at h1
  have harith : (9994 : ℕ) - 1 + 2 * 2 * 2 = 10001 := by norm_num
  rw [harith] at h1
  have hds : engineStep envSplit 1 pt0 (kernelzz envSplit) deepState
      = StepOut.next
          ⟨(splitChildren unitT 2 2 2).reverse ++ List.replicate 9993 unitT,
            10001, 0⟩ := h1
  refine ⟨hds, ?_, ?_, ?_, ?_⟩
  · rw [hds]
    rfl
  · rw [hds]
    show ((splitChildren unitT 2 2 2).reverse ++ List.replicate 9993 unitT).length
      = 10001
    rw [List.length_append, List.length_reverse, List.length_replicate,
      splitChildren_length]
  · rw [hds]
    show queue_max < 10001
    norm_num [queue_max]
  · rw [hds]
    rfl

/-! ## Claim C5: a failed point commits nothing -/

/-- C5: whenever the batch run raises, the error is the overflow message and
the result array state at the raise is: every entry of a point processed
before the failing one carries exactly its original value plus `density`
times that point's completed engine accumulator, the failing point's entry
and all later entries are untouched. -/
theorem overflow_commits_no_partial_result (env : Env) (t : Tess)
    (density ratio : ℚ) (kernel : Point → ℚ → Nodes → ℚ) (fuel : ℕ) :
    ∀ (L : List (Point × ℚ)) (m : String) (A : List ℚ),
      with_rediscretization env t density ratio kernel fuel L = RunOut.err m A →
      m = overflowMsg ∧
      ∃ processed pr rest, L = processed ++ pr :: rest ∧
        engineLoop env ratio pr.1 kernel fuel (initState t) = LoopOut.overflow ∧
        (∀ x ∈ processed,
          loopIsOk (engineLoop env ratio x.1 kernel fuel (initState t)) = true) ∧
        A = processed.map
              (fun x => x.2 + density * pointValue env t ratio kernel fuel x.1)
            ++ pr.2 :: rest.map Prod.snd := by
  intro L
  induction L with
  | nil =>
    intro m A h
    simp [with_rediscretization] at h
  | cons p0 rest0 ih =>
    intro m A h
    have h' : (match engineLoop env ratio p0.1 kernel fuel (initState t) with
      | LoopOut.ok res =>
        (match with_rediscretization env t density ratio kernel fuel rest0 with
          | RunOut.ok out => RunOut.ok ((p0.2 + density * res) :: out)
          | RunOut.err m2 out => RunOut.err m2 ((p0.2 + density * res) :: out)
          | RunOut.stalled => RunOut.stalled)
      | LoopOut.overflow => RunOut.err overflowMsg (p0.2 :: rest0.map Prod.snd)
      | LoopOut.stalled _ => RunOut.stalled) = RunOut.err m A := h
    clear h
    cases heng : engineLoop env ratio p0.1 kernel fuel (initState t) with
    | ok res =>
      rw [heng] at h'
      cases hrec : with_rediscretization env t density ratio kernel fuel rest0 with
      | ok out => rw [hrec] at h'; cases h'
      | err m2 out =>
        rw [hrec] at h'
        injection h' with hm hA
        obtain ⟨hmsg, processed, pr, rst, hL, hover, hok, hAout⟩ := ih m2 out hrec
        have hpv : pointValue env t ratio kernel fuel p0.1 = res := by
          simp [pointValue, heng]
        refine ⟨by rw [← hm]; exact hmsg, p0 :: processed, pr, rst,
          by rw [hL]; simp, hover, ?_, ?_⟩
        · intro x hx
          rcases List.mem_cons.1 hx with hx | hx
          · subst hx
            simp [loopIsOk, heng]
          · exact hok x hx
        · rw [← hA, hAout, List.map_cons, hpv]
          simp
      | stalled => rw [hrec] at h'; cases h'
    | overflow =>
      rw [heng] at h'
      injection h' with hm hA
      refine ⟨hm.symm, [], p0, rest0, rfl, heng, by simp, ?_⟩
      rw [← hA]
      simp
    | stalled st =>
      rw [heng] at h'
      cases h'

set_option maxRecDepth 400000 in
/-- C5 witness: the no-partial-commit theorem applied to a concrete run in
which the single point's adaptive evaluation overflows the work list after
1428 triple splits; its result entry keeps its original value `37`. -/
theorem overflow_commits_no_partial_result_witness :
    overflowMsg = overflowMsg ∧
    ∃ processed pr rest,
      [(pt0, (37 : ℚ))] = processed ++ pr :: rest ∧
      engineLoop envSplit 1 pr.1 (kernelzz envSplit) 1500 (initState unitT)
        = LoopOut.overflow ∧
      (∀ x ∈ processed,
        loopIsOk (engineLoop envSplit 1 x.1 (kernelzz envSplit) 1500
          (initState unitT)) = true) ∧
      ([37] : List ℚ) = processed.map
            (fun x => x.2 + 1 * pointValue envSplit unitT 1 (kernelzz envSplit) 1500 x.1)
          ++ pr.2 :: rest.map Prod.snd :=
  overflow_commits_no_partial_result envSplit unitT 1 1 (kernelzz envSplit) 1500
    [(pt0, 37)] overflowMsg [37] (by with_unfolding_all rfl)

end FatiandoTesseroid
